import Mathlib

/-
Verification of the substitution-cipher puzzle core of `bot.py`.

The `Puzzle` class is embedded shallowly: Python dicts become association
lists (insertion order preserved, as in Python), strings become `List Char`,
and the two sources of randomness (`random.shuffle` in `generate_cipher`,
`random.choice` in `give_hint`) become explicit parameters: the shuffled
alphabet is an arbitrary permutation of the uppercase alphabet, and the
hint choice is an arbitrary index into the list of unguessed characters.

Character classes: Python's `str.isalpha` is Unicode-aware, and this
matters for `give_hint` — a non-ASCII letter such as 'é' passes through
the cipher unchanged, counts as alphabetic, can never be guessed or
revealed, and when `random.choice` picks it the mapping scan fails and
the loop's trailing `return None` runs with unguessed letters remaining.
`pyIsAlpha` therefore covers the ASCII letters plus the Latin-1
supplement letters, enough to express that behavior. `isupper`,
`islower`, `str.lower` and `isalnum` are modelled on the ASCII fragment:
for them the non-ASCII cases do not change any observable result used
here (for example `make_guess` with a non-ASCII uppercase letter returns
false without mutating, through the format branch in the model and
through the failed mapping scan in Python).
-/

namespace Bot

/-- The 26 lowercase letters, `string.ascii_lowercase`. -/
def asciiLower : List Char := "abcdefghijklmnopqrstuvwxyz".toList

/-- The 26 uppercase letters, `string.ascii_uppercase`. -/
def asciiUpper : List Char := "ABCDEFGHIJKLMNOPQRSTUVWXYZ".toList

/-- ASCII model of Python `str.lower` applied to one character. -/
def pyToLower (c : Char) : Char :=
  if c.isUpper then Char.ofNat (c.toNat + 32) else c

/-- Model of Python `str.isalpha` for one character: the ASCII letters
plus the Latin-1 supplement letters (U+00C0 to U+00FF, which are letters
except the multiplication and division signs U+00D7 and U+00F7). Python's
predicate accepts the whole Unicode alphabetic table; this fragment is
enough to express the behavior of `give_hint` on non-ASCII letters. -/
def pyIsAlpha (c : Char) : Bool :=
  c.isAlpha ||
    (decide (192 ≤ c.toNat) && decide (c.toNat ≤ 255) &&
     decide (c.toNat ≠ 215) && decide (c.toNat ≠ 247))

/-- Python dict assignment `d[k] = v`: update the value in place if the key
is present (keeping its position, as Python dicts do), otherwise append the
new binding at the end. -/
def dictInsert : List (Char × Char) → Char → Char → List (Char × Char)
  | [], k, v => [(k, v)]
  | e :: rest, k, v =>
    if e.1 == k then (k, v) :: rest else e :: dictInsert rest k v

/-- The state of one `Puzzle` object: `plaintext`, `cipher_mapping`
(plain letter to cipher letter) and `user_guesses` (cipher letter to
plain letter), as in `Puzzle.__init__`. -/
structure Puzzle where
  plaintext : List Char
  cipher_mapping : List (Char × Char)
  user_guesses : List (Char × Char)
deriving DecidableEq

/-- Model of `Puzzle.__init__` together with `generate_cipher`: lowercase the
plaintext and pair `string.ascii_lowercase` with the shuffled uppercase
alphabet (`dict(zip(alphabet, shuffled))`). The shuffle outcome is the
explicit argument `shuffled`. -/
def Puzzle.new (plaintext : List Char) (shuffled : List Char) : Puzzle :=
  { plaintext := plaintext.map pyToLower
    cipher_mapping := asciiLower.zip shuffled
    user_guesses := [] }

/-- Model of `Puzzle.get_ciphertext`: each plaintext character is replaced by
`cipher_mapping.get(c, c)`. -/
def Puzzle.get_ciphertext (p : Puzzle) : List Char :=
  p.plaintext.map (fun c => (p.cipher_mapping.lookup c).getD c)

/-- Model of `Puzzle.get_current_guess`: alphabetic ciphertext characters present in
`user_guesses` show the guessed letter, other alphabetic characters show an
underscore, everything else passes through. -/
def Puzzle.get_current_guess (p : Puzzle) : List Char :=
  p.get_ciphertext.map (fun char =>
    if char.isAlpha then
      match p.user_guesses.lookup char with
      | some g => g
      | none => '_'
    else char)

/-- Model of `Puzzle.make_guess`: reject unless `cipher_char` is uppercase and
`plain_char` lowercase; then scan `cipher_mapping` for the entry whose
value is `cipher_char` and accept (recording the guess) exactly when its
key equals `plain_char`. Returns the Python return value paired with the
state after the call. -/
def Puzzle.make_guess (p : Puzzle) (cipher_char plain_char : Char) :
    Bool × Puzzle :=
  if cipher_char.isUpper && plain_char.isLower then
    match p.cipher_mapping.find? (fun e => e.2 == cipher_char) with
    | some e =>
      if e.1 == plain_char then
        (true, { p with
          user_guesses := dictInsert p.user_guesses cipher_char plain_char })
      else (false, p)
    | none => (false, p)
  else (false, p)

/-- Model of `Puzzle.undo_guess`: delete the entry for `cipher_char` from
`user_guesses` if present, reporting whether a deletion happened. -/
def Puzzle.undo_guess (p : Puzzle) (cipher_char : Char) : Bool × Puzzle :=
  if p.user_guesses.any (fun e => e.1 == cipher_char) then
    (true, { p with
      user_guesses := p.user_guesses.filter (fun e => !(e.1 == cipher_char)) })
  else (false, p)

/-- Model of `Puzzle.clear_guesses`: empty `user_guesses`. -/
def Puzzle.clear_guesses (p : Puzzle) : Puzzle :=
  { p with user_guesses := [] }

/-- Model of `Puzzle.is_solved`: the rendered current guess equals the plaintext. -/
def Puzzle.is_solved (p : Puzzle) : Bool :=
  p.get_current_guess == p.plaintext

/-- The list `unguessed` built inside `Puzzle.give_hint`: ciphertext
characters that are alphabetic (Python `isalpha`, modelled by
`pyIsAlpha`) and not yet keys of `user_guesses` (with multiplicity, as in
the Python list). -/
def Puzzle.unguessedList (p : Puzzle) : List Char :=
  p.get_ciphertext.filter
    (fun cipher_char =>
      pyIsAlpha cipher_char &&
        !(p.user_guesses.any (fun e => e.1 == cipher_char)))

/-- Model of `Puzzle.give_hint`: if no unguessed alphabetic ciphertext character
remains, return `none`; otherwise pick one (`random.choice`, modelled by
the index `n` reduced modulo the list length), look up its plaintext letter
in `cipher_mapping`, record it and return the pair. The trailing
`return None` of the Python loop is the `none` branch of the inner match;
it is reachable, as in Python, when the chosen character is a non-ASCII
letter that passed through the cipher unchanged. -/
def Puzzle.give_hint (p : Puzzle) (n : Nat) : Option (Char × Char) × Puzzle :=
  match p.unguessedList with
  | [] => (none, p)
  | u :: rest =>
    let chosen := (u :: rest).getD (n % (u :: rest).length) u
    match p.cipher_mapping.find? (fun e => e.2 == chosen) with
    | some e =>
      (some (chosen, e.1),
       { p with user_guesses := dictInsert p.user_guesses chosen e.1 })
    | none => (none, p)

/-- The normalization inside the `solve` command (`solve_puzzle`):
lowercase, then keep only alphanumeric characters. -/
def normalize (text : List Char) : List Char :=
  (text.map pyToLower).filter Char.isAlphanum

/-- The comparison performed by the `solve` command (`solve_puzzle`):
normalize the submitted text and the plaintext and compare. The command
never writes to the puzzle, so the state component is returned unchanged. -/
def solve_puzzle (p : Puzzle) (guess_text : List Char) : Bool × Puzzle :=
  (normalize guess_text == normalize p.plaintext, p)

/-- Iterated hints: `hintIter p ns k` is the state after `k` calls of
`give_hint`, the `i`-th call using choice `ns i`. -/
def hintIter (p : Puzzle) (ns : Nat → Nat) : Nat → Puzzle
  | 0 => p
  | k + 1 => ((hintIter p ns k).give_hint (ns k)).2

/-- Puzzle states reachable from `Puzzle.new` (with `shuffled` any
permutation of the uppercase alphabet, as produced by `random.shuffle`)
by guesses, undos, clears and hints. -/
inductive Reachable : Puzzle → Prop where
  | new : ∀ (pt shuffled : List Char), shuffled.Perm asciiUpper →
      Reachable (Puzzle.new pt shuffled)
  | guess : ∀ {p : Puzzle} (c k : Char), Reachable p →
      Reachable (p.make_guess c k).2
  | undo : ∀ {p : Puzzle} (c : Char), Reachable p →
      Reachable (p.undo_guess c).2
  | clear : ∀ {p : Puzzle}, Reachable p → Reachable p.clear_guesses
  | hint : ∀ {p : Puzzle} (n : Nat), Reachable p →
      Reachable (p.give_hint n).2

/-- The state invariant maintained by every reachable puzzle: the cipher
mapping is the lowercase alphabet zipped with a permutation of the
uppercase alphabet, the plaintext has been lowercased, and every recorded
guess agrees with the true mapping. -/
structure Inv (p : Puzzle) : Prop where
  mapping_perm : ∃ shuffled : List Char, shuffled.Perm asciiUpper ∧
    p.cipher_mapping = asciiLower.zip shuffled
  plain_lower : ∀ c ∈ p.plaintext, c.isUpper = false
  guesses_sub : ∀ c k : Char, (c, k) ∈ p.user_guesses → (k, c) ∈ p.cipher_mapping

/-! Character-class facts about the two alphabets. -/

theorem mem_asciiUpper_isUpper : ∀ c ∈ asciiUpper, c.isUpper = true := by decide

theorem mem_asciiLower_isLower : ∀ c ∈ asciiLower, c.isLower = true := by decide

theorem asciiUpper_nodup : asciiUpper.Nodup := by decide

theorem asciiLower_length : asciiLower.length = 26 := by decide

theorem isUpper_mem_asciiUpper (c : Char) (h : c.isUpper = true) :
    c ∈ asciiUpper := by
  have hb : 65 ≤ c.toNat ∧ c.toNat ≤ 90 := by
    simp [Char.isUpper] at h
    exact ⟨h.1, h.2⟩
  have hc : c = Char.ofNat c.toNat := (Char.ofNat_toNat c).symm
  obtain ⟨h1, h2⟩ := hb
  interval_cases hn : c.toNat <;> rw [hc] <;> decide

theorem isLower_mem_asciiLower (c : Char) (h : c.isLower = true) :
    c ∈ asciiLower := by
  have hb : 97 ≤ c.toNat ∧ c.toNat ≤ 122 := by
    simp [Char.isLower] at h
    exact ⟨h.1, h.2⟩
  have hc : c = Char.ofNat c.toNat := (Char.ofNat_toNat c).symm
  obtain ⟨h1, h2⟩ := hb
  interval_cases hn : c.toNat <;> rw [hc] <;> decide

theorem pyToLower_isUpper (c : Char) : (pyToLower c).isUpper = false := by
  by_cases h : c.isUpper = true
  · have hm := isUpper_mem_asciiUpper c h
    fin_cases hm <;> decide
  · have h0 : c.isUpper = false := by
      cases hv : c.isUpper
      · rfl
      · exact absurd hv h
    simp [pyToLower, h0]

theorem isAlpha_pyIsAlpha {c : Char} (h : c.isAlpha = true) :
    pyIsAlpha c = true := by
  simp [pyIsAlpha, h]

theorem pyIsAlpha_ascii {c : Char} (hc : c.toNat < 128)
    (h : pyIsAlpha c = true) : c.isAlpha = true := by
  simp only [pyIsAlpha] at h
  rw [Bool.or_eq_true] at h
  rcases h with h1 | h1
  · exact h1
  · exfalso
    rw [Bool.and_eq_true, Bool.and_eq_true, Bool.and_eq_true] at h1
    have h2 : 192 ≤ c.toNat := of_decide_eq_true h1.1.1.1
    omega

/-! Association-list facts. -/

theorem lookup_some_mem {d : List (Char × Char)} {k v : Char}
    (h : d.lookup k = some v) : (k, v) ∈ d := by
  obtain ⟨l₁, l₂, rfl, -⟩ := List.lookup_eq_some_iff.mp h
  exact List.mem_append.mpr (Or.inr (List.mem_cons_self _ _))

theorem hasKey_iff_lookup (d : List (Char × Char)) (k : Char) :
    d.any (fun e => e.1 == k) = true ↔ (d.lookup k).isSome := by
  rw [List.any_eq_true, List.lookup_isSome_iff]
  constructor
  · rintro ⟨e, he, hk⟩
    exact ⟨e, he, beq_iff_eq.mpr (eq_of_beq hk).symm⟩
  · rintro ⟨e, he, hk⟩
    exact ⟨e, he, beq_iff_eq.mpr (eq_of_beq hk).symm⟩

theorem lookup_zip_isSome {l₁ l₂ : List Char} {k : Char}
    (h : k ∈ l₁) (hl : l₁.length ≤ l₂.length) :
    ((l₁.zip l₂).lookup k).isSome := by
  obtain ⟨i, hi⟩ := List.mem_iff_getElem?.mp h
  have hi2 : i < l₁.length := by
    by_contra hc
    rw [List.getElem?_eq_none (by omega)] at hi
    exact Option.noConfusion hi
  have hi3 : i < l₂.length := Nat.lt_of_lt_of_le hi2 hl
  apply List.lookup_isSome_iff.mpr
  refine ⟨(k, l₂[i]), ?_, by simp⟩
  apply List.mem_iff_getElem?.mpr
  exact ⟨i, List.getElem?_zip_eq_some.mpr ⟨hi, List.getElem?_eq_getElem hi3⟩⟩

theorem snd_nodup_value_inj {d : List (Char × Char)}
    (h : (d.map Prod.snd).Nodup) {a b c : Char}
    (ha : (a, c) ∈ d) (hb : (b, c) ∈ d) : a = b := by
  induction d with
  | nil => cases ha
  | cons e rest ih =>
    rw [List.map_cons, List.nodup_cons] at h
    rcases List.mem_cons.mp ha with ha1 | ha1 <;>
      rcases List.mem_cons.mp hb with hb1 | hb1
    · have hab : (a, c) = (b, c) := ha1.trans hb1.symm
      exact congrArg Prod.fst hab
    · exfalso
      apply h.1
      have : e.2 = c := congrArg Prod.snd ha1.symm
      rw [this]
      exact List.mem_map.mpr ⟨(b, c), hb1, rfl⟩
    · exfalso
      apply h.1
      have : e.2 = c := congrArg Prod.snd hb1.symm
      rw [this]
      exact List.mem_map.mpr ⟨(a, c), ha1, rfl⟩
    · exact ih h.2 ha1 hb1

theorem mem_of_mem_dictInsert {d : List (Char × Char)} {k v : Char}
    {x : Char × Char} (h : x ∈ dictInsert d k v) : x ∈ d ∨ x = (k, v) := by
  induction d with
  | nil =>
    right
    simpa [dictInsert] using h
  | cons e rest ih =>
    by_cases h1 : e.1 = k
    · rw [dictInsert, if_pos (by simpa using h1)] at h
      rcases List.mem_cons.mp h with h2 | h2
      · exact Or.inr h2
      · exact Or.inl (List.mem_cons.mpr (Or.inr h2))
    · rw [dictInsert, if_neg (by simpa using h1)] at h
      rcases List.mem_cons.mp h with h2 | h2
      · exact Or.inl (List.mem_cons.mpr (Or.inl h2))
      · rcases ih h2 with h3 | h3
        · exact Or.inl (List.mem_cons.mpr (Or.inr h3))
        · exact Or.inr h3

theorem lookup_dictInsert (d : List (Char × Char)) (k v u : Char) :
    (dictInsert d k v).lookup u = if u = k then some v else d.lookup u := by
  induction d with
  | nil =>
    by_cases h : u = k
    · simp [dictInsert, List.lookup_cons, h]
    · have hb : (u == k) = false := by
        cases hv : u == k
        · rfl
        · exact absurd (eq_of_beq hv) h
      simp [dictInsert, List.lookup_cons, hb, h]
  | cons e rest ih =>
    by_cases h1 : e.1 = k
    · rw [dictInsert, if_pos (by simpa using h1)]
      by_cases h : u = k
      · simp [List.lookup_cons, h]
      · rw [List.lookup_cons]
        have hek : ¬(u == k) = true := by simpa using h
        have heu : ¬(u == e.1) = true := by simpa [h1] using h
        simp only [hek, heu]
        rw [List.lookup_cons]
        simp only [heu]
        simp [h]
    · rw [dictInsert, if_neg (by simpa using h1)]
      by_cases h : u = e.1
      · have hne : u ≠ k := by rw [h]; simpa using h1
        rw [List.lookup_cons, List.lookup_cons]
        simp [h, hne, h1]
      · rw [List.lookup_cons, List.lookup_cons]
        have heu : ¬(u == e.1) = true := by simpa using h
        simp only [heu]
        exact ih

theorem self_mem_dictInsert (d : List (Char × Char)) (k v : Char) :
    (k, v) ∈ dictInsert d k v := by
  induction d with
  | nil => simp [dictInsert]
  | cons e rest ih =>
    by_cases h : e.1 = k
    · rw [dictInsert, if_pos (by simpa using h)]
      exact List.mem_cons_self _ _
    · rw [dictInsert, if_neg (by simpa using h)]
      exact List.mem_cons.mpr (Or.inr ih)

theorem dictInsert_no_key {d : List (Char × Char)} {k : Char} (v : Char)
    (h : ∀ e ∈ d, e.1 ≠ k) : dictInsert d k v = d ++ [(k, v)] := by
  induction d with
  | nil => simp [dictInsert]
  | cons e rest ih =>
    have h1 : e.1 ≠ k := h e (List.mem_cons_self _ _)
    rw [dictInsert, if_neg (by simpa using h1), List.cons_append]
    rw [ih (fun x hx => h x (List.mem_cons.mpr (Or.inr hx)))]

theorem dictInsert_eq_self {d : List (Char × Char)} {k v : Char}
    (hmem : (k, v) ∈ d) (huniq : ∀ e ∈ d, e.1 = k → e.2 = v) :
    dictInsert d k v = d := by
  induction d with
  | nil => cases hmem
  | cons e rest ih =>
    obtain ⟨e1, e2⟩ := e
    by_cases h : e1 = k
    · have hv : e2 = v := huniq (e1, e2) (List.mem_cons_self _ _) h
      rw [dictInsert, if_pos (by simpa using h), h, hv]
    · rcases List.mem_cons.mp hmem with h2 | h2
      · exact absurd (congrArg Prod.fst h2.symm) h
      · rw [dictInsert, if_neg (by simpa using h)]
        rw [ih h2 (fun x hx => huniq x (List.mem_cons.mpr (Or.inr hx)))]

theorem filter_key_append {d : List (Char × Char)} {c : Char} (k : Char)
    (h : ∀ e ∈ d, e.1 ≠ c) :
    (d ++ [(c, k)]).filter (fun e => !(e.1 == c)) = d := by
  rw [List.filter_append]
  have h1 : d.filter (fun e => !(e.1 == c)) = d :=
    List.filter_eq_self.mpr (fun e he => by simpa using h e he)
  have h2 : List.filter (fun e => !(e.1 == c)) [(c, k)] = [] := by simp
  rw [h1, h2, List.append_nil]

theorem any_key_append (d : List (Char × Char)) (c k : Char) :
    (d ++ [(c, k)]).any (fun e => e.1 == c) = true :=
  List.any_eq_true.mpr ⟨(c, k), List.mem_append.mpr (Or.inr (by simp)), by simp⟩

theorem find?_value_eq {d : List (Char × Char)}
    (hnd : (d.map Prod.snd).Nodup) {k c : Char} (hmem : (k, c) ∈ d) :
    d.find? (fun e => e.2 == c) = some (k, c) := by
  have hs : (d.find? (fun e => e.2 == c)).isSome :=
    List.find?_isSome.mpr ⟨(k, c), hmem, by simp⟩
  obtain ⟨e, he⟩ := Option.isSome_iff_exists.mp hs
  obtain ⟨e1, e2⟩ := e
  have he2 : e2 = c := eq_of_beq (by simpa using List.find?_some he)
  subst he2
  have hemem : (e1, e2) ∈ d := List.mem_of_find?_eq_some he
  have he1 : e1 = k := snd_nodup_value_inj hnd hemem hmem
  subst he1
  exact he

/-! Characterizations of the puzzle operations. -/

theorem make_guess_cases (p : Puzzle) (c k : Char) :
    p.make_guess c k = (false, p) ∨
    (c.isUpper = true ∧ k.isLower = true ∧ (k, c) ∈ p.cipher_mapping ∧
      p.cipher_mapping.find? (fun e => e.2 == c) = some (k, c) ∧
      p.make_guess c k =
        (true, { p with user_guesses := dictInsert p.user_guesses c k })) := by
  unfold Puzzle.make_guess
  by_cases h1 : (c.isUpper && k.isLower) = true
  · rw [if_pos h1]
    rcases hf : p.cipher_mapping.find? (fun e => e.2 == c) with _ | e
    · rw [hf]
      exact Or.inl rfl
    · obtain ⟨e1, e2⟩ := e
      have he2 : e2 = c := eq_of_beq (by simpa using List.find?_some hf)
      subst he2
      by_cases h2 : (e1 == k) = true
      · have he1 : e1 = k := eq_of_beq h2
        subst he1
        right
        rw [Bool.and_eq_true] at h1
        refine ⟨h1.1, h1.2, List.mem_of_find?_eq_some hf, hf, ?_⟩
        rw [hf]
        exact if_pos h2
      · left
        rw [hf]
        exact if_neg h2
  · rw [if_neg h1]
    exact Or.inl rfl

theorem undo_guess_cases (p : Puzzle) (c : Char) :
    (p.undo_guess c = (false, p) ∧
       p.user_guesses.any (fun e => e.1 == c) = false) ∨
    p.undo_guess c =
      (true, { p with
        user_guesses := p.user_guesses.filter (fun e => !(e.1 == c)) }) := by
  unfold Puzzle.undo_guess
  by_cases h : p.user_guesses.any (fun e => e.1 == c) = true
  · rw [if_pos h]
    exact Or.inr rfl
  · rw [if_neg h]
    refine Or.inl ⟨rfl, ?_⟩
    cases hv : p.user_guesses.any (fun e => e.1 == c)
    · rfl
    · exact absurd hv h

theorem give_hint_empty (p : Puzzle) (n : Nat) (h : p.unguessedList = []) :
    p.give_hint n = (none, p) := by
  unfold Puzzle.give_hint
  simp only [h]

theorem unguessed_mem_ciphertext {p : Puzzle} {u : Char}
    (hu : u ∈ p.unguessedList) :
    u ∈ p.get_ciphertext ∧ pyIsAlpha u = true ∧
      p.user_guesses.any (fun e => e.1 == u) = false := by
  obtain ⟨hmem, hpred⟩ := List.mem_filter.mp hu
  rw [Bool.and_eq_true] at hpred
  obtain ⟨ha, hng⟩ := hpred
  refine ⟨hmem, ha, ?_⟩
  cases hv : p.user_guesses.any (fun e => e.1 == u)
  · rfl
  · rw [hv] at hng
    cases hng

theorem unguessed_has_entry {p : Puzzle} (hInv : Inv p)
    (hascii : ∀ c ∈ p.plaintext, c.toNat < 128) {u : Char}
    (hu : u ∈ p.unguessedList) : ∃ e ∈ p.cipher_mapping, e.2 = u := by
  obtain ⟨hmem, ha, -⟩ := unguessed_mem_ciphertext hu
  obtain ⟨c, hc, henc⟩ := List.mem_map.mp hmem
  rcases hl : p.cipher_mapping.lookup c with _ | w
  · exfalso
    rw [hl] at henc
    simp only [Option.getD_none] at henc
    have hup : c.isUpper = false := hInv.plain_lower c hc
    have hlo : c.isLower = true := by
      have ha2 : pyIsAlpha c = true := by rw [henc]; exact ha
      have ha3 : c.isAlpha = true := pyIsAlpha_ascii (hascii c hc) ha2
      simp only [Char.isAlpha, Bool.or_eq_true, hup] at ha3
      simpa using ha3
    obtain ⟨shuffled, hperm, hmap⟩ := hInv.mapping_perm
    have hlen : asciiLower.length ≤ shuffled.length := by
      rw [hperm.length_eq]
      decide
    have hsome : ((asciiLower.zip shuffled).lookup c).isSome :=
      lookup_zip_isSome (isLower_mem_asciiLower c hlo) hlen
    rw [← hmap, hl] at hsome
    cases hsome
  · rw [hl] at henc
    simp only [Option.getD_some] at henc
    rw [← henc]
    exact ⟨(c, w), lookup_some_mem hl, rfl⟩

theorem give_hint_cons {p : Puzzle} {u : Char} {rest : List Char} (n : Nat)
    (hur : p.unguessedList = u :: rest) (chosen : Char)
    (hch : chosen = (u :: rest).getD (n % (u :: rest).length) u) :
    p.give_hint n =
      match p.cipher_mapping.find? (fun e => e.2 == chosen) with
      | some e =>
        (some (chosen, e.1),
         { p with user_guesses := dictInsert p.user_guesses chosen e.1 })
      | none => (none, p) := by
  subst hch
  unfold Puzzle.give_hint
  rw [hur]

theorem getD_mod_mem (u : Char) (rest : List Char) (n : Nat) :
    (u :: rest).getD (n % (u :: rest).length) u ∈ u :: rest := by
  have hlt : n % (u :: rest).length < (u :: rest).length :=
    Nat.mod_lt _ (Nat.succ_pos _)
  rw [List.getD_eq_getElem?_getD, List.getElem?_eq_getElem hlt]
  exact List.getElem_mem _

theorem give_hint_nonempty (p : Puzzle) (n : Nat) (hInv : Inv p)
    (hascii : ∀ c ∈ p.plaintext, c.toNat < 128)
    (h : p.unguessedList ≠ []) :
    ∃ chosen e, chosen ∈ p.unguessedList ∧
      p.cipher_mapping.find? (fun x => x.2 == chosen) = some e ∧
      e.2 = chosen ∧ (e.1, chosen) ∈ p.cipher_mapping ∧
      p.give_hint n =
        (some (chosen, e.1),
         { p with user_guesses := dictInsert p.user_guesses chosen e.1 }) := by
  obtain ⟨u, rest, hur⟩ := List.exists_cons_of_ne_nil h
  have hchosen_mem : (u :: rest).getD (n % (u :: rest).length) u ∈
      p.unguessedList := by
    rw [hur]
    exact getD_mod_mem u rest n
  obtain ⟨e0, he0mem, he0v⟩ := unguessed_has_entry hInv hascii hchosen_mem
  have hs : (p.cipher_mapping.find?
      (fun x => x.2 == (u :: rest).getD (n % (u :: rest).length) u)).isSome :=
    List.find?_isSome.mpr ⟨e0, he0mem, by simp [he0v]⟩
  obtain ⟨e, hf⟩ := Option.isSome_iff_exists.mp hs
  have he2 : e.2 = (u :: rest).getD (n % (u :: rest).length) u :=
    eq_of_beq (by simpa using List.find?_some hf)
  have hemem : e ∈ p.cipher_mapping := List.mem_of_find?_eq_some hf
  refine ⟨(u :: rest).getD (n % (u :: rest).length) u, e,
    hchosen_mem, hf, he2, ?_, ?_⟩
  · rw [← he2]
    exact hemem
  · rw [give_hint_cons n hur _ rfl, hf]

theorem give_hint_cases (p : Puzzle) (n : Nat) :
    (p.give_hint n).2 = p ∨
    ∃ chosen e, p.cipher_mapping.find? (fun x => x.2 == chosen) = some e ∧
      e ∈ p.cipher_mapping ∧ e.2 = chosen ∧
      (p.give_hint n).2 =
        { p with user_guesses := dictInsert p.user_guesses chosen e.1 } := by
  rcases hur : p.unguessedList with _ | ⟨u, rest⟩
  · left
    rw [give_hint_empty p n hur]
  · rcases hf : p.cipher_mapping.find?
        (fun x => x.2 == (u :: rest).getD (n % (u :: rest).length) u) with _ | e
    · left
      rw [give_hint_cons n hur _ rfl, hf]
    · right
      refine ⟨(u :: rest).getD (n % (u :: rest).length) u, e, hf,
        List.mem_of_find?_eq_some hf,
        eq_of_beq (by simpa using List.find?_some hf), ?_⟩
      rw [give_hint_cons n hur _ rfl, hf]

theorem give_hint_plaintext (p : Puzzle) (n : Nat) :
    (p.give_hint n).2.plaintext = p.plaintext := by
  rcases give_hint_cases p n with hcase | ⟨chosen, e, -, -, -, hcase⟩
  · rw [hcase]
  · rw [hcase]

theorem inv_snd_nodup {p : Puzzle} (hInv : Inv p) :
    (p.cipher_mapping.map Prod.snd).Nodup := by
  obtain ⟨shuffled, hperm, hmap⟩ := hInv.mapping_perm
  rw [hmap, List.map_snd_zip]
  · exact hperm.nodup_iff.mpr asciiUpper_nodup
  · rw [hperm.length_eq]
    decide

theorem inv_entry_classes {p : Puzzle} (hInv : Inv p) {e : Char × Char}
    (he : e ∈ p.cipher_mapping) : e.1.isLower = true ∧ e.2.isUpper = true := by
  obtain ⟨shuffled, hperm, hmap⟩ := hInv.mapping_perm
  rw [hmap] at he
  obtain ⟨a, b⟩ := e
  obtain ⟨h1, h2⟩ := List.of_mem_zip he
  exact ⟨mem_asciiLower_isLower a h1,
    mem_asciiUpper_isUpper b (hperm.mem_iff.mp h2)⟩

theorem make_guess_bad_format (p : Puzzle) {c k : Char}
    (h : (c.isUpper && k.isLower) = false) : p.make_guess c k = (false, p) := by
  unfold Puzzle.make_guess
  rw [if_neg (by simp [h])]

theorem reachable_inv {p : Puzzle} (h : Reachable p) : Inv p := by
  induction h with
  | new pt shuffled hperm =>
    refine ⟨⟨shuffled, hperm, rfl⟩, ?_, ?_⟩
    · intro c hc
      obtain ⟨a, -, rfl⟩ := List.mem_map.mp hc
      exact pyToLower_isUpper a
    · intro c k hck
      cases hck
  | @guess p c k hp ih =>
    rcases make_guess_cases p c k with hcase | ⟨-, -, hmem, -, hcase⟩
    · rw [hcase]
      exact ih
    · rw [hcase]
      refine ⟨ih.mapping_perm, ih.plain_lower, ?_⟩
      intro a b hmem'
      rcases mem_of_mem_dictInsert hmem' with hin | heq2
      · exact ih.guesses_sub a b hin
      · rw [Prod.mk.injEq] at heq2
        obtain ⟨rfl, rfl⟩ := heq2
        exact hmem
  | @undo p c hp ih =>
    rcases undo_guess_cases p c with ⟨hcase, -⟩ | hcase
    · rw [hcase]
      exact ih
    · rw [hcase]
      refine ⟨ih.mapping_perm, ih.plain_lower, ?_⟩
      intro a b hmem'
      exact ih.guesses_sub a b (List.mem_filter.mp hmem').1
  | @clear p hp ih =>
    refine ⟨ih.mapping_perm, ih.plain_lower, ?_⟩
    intro a b hmem'
    cases hmem'
  | @hint p n hp ih =>
    rcases give_hint_cases p n with hcase | ⟨chosen, e, -, hemem, he2, hcase⟩
    · rw [hcase]
      exact ih
    · rw [hcase]
      refine ⟨ih.mapping_perm, ih.plain_lower, ?_⟩
      intro a b hmem'
      rcases mem_of_mem_dictInsert hmem' with hin | heq2
      · exact ih.guesses_sub a b hin
      · rw [Prod.mk.injEq] at heq2
        obtain ⟨rfl, rfl⟩ := heq2
        rw [← he2]
        exact hemem

/-! The solved state reached when no unguessed letter remains. -/

theorem bool_eq_of_iff {a b : Bool} (h : (a = true) ↔ (b = true)) : a = b := by
  cases a <;> cases b <;> simp_all

theorem mapIdOf {l : List Char} {f : Char → Char} (h : ∀ c ∈ l, f c = c) :
    l.map f = l := by
  induction l with
  | nil => rfl
  | cons a t ih =>
    rw [List.map_cons, h a (List.mem_cons_self _ _),
      ih (fun c hc => h c (List.mem_cons.mpr (Or.inr hc)))]

theorem plain_not_alpha {p : Puzzle} (hInv : Inv p) {c : Char}
    (hc : c ∈ p.plaintext) (hl : p.cipher_mapping.lookup c = none) :
    c.isAlpha = false := by
  cases hv : c.isAlpha
  · rfl
  · exfalso
    have hup : c.isUpper = false := hInv.plain_lower c hc
    have hlo : c.isLower = true := by
      simp only [Char.isAlpha, Bool.or_eq_true, hup] at hv
      simpa using hv
    obtain ⟨shuffled, hperm, hmap⟩ := hInv.mapping_perm
    have hlen : asciiLower.length ≤ shuffled.length := by
      rw [hperm.length_eq]
      decide
    have hsome : ((asciiLower.zip shuffled).lookup c).isSome :=
      lookup_zip_isSome (isLower_mem_asciiLower c hlo) hlen
    rw [← hmap, hl] at hsome
    cases hsome

theorem unguessed_empty_solved {p : Puzzle} (hInv : Inv p)
    (h : p.unguessedList = []) : p.get_current_guess = p.plaintext := by
  have h' : p.get_ciphertext.filter
      (fun u => pyIsAlpha u && !(p.user_guesses.any (fun e => e.1 == u))) = [] := h
  have hall := List.filter_eq_nil_iff.mp h'
  unfold Puzzle.get_current_guess Puzzle.get_ciphertext
  rw [List.map_map]
  apply mapIdOf
  intro c hc
  rcases hl : p.cipher_mapping.lookup c with _ | w
  · have hna : c.isAlpha = false := plain_not_alpha hInv hc hl
    simp [Function.comp, hl, hna]
  · have hw : (c, w) ∈ p.cipher_mapping := lookup_some_mem hl
    have hwu : w.isUpper = true := (inv_entry_classes hInv hw).2
    have hwa : w.isAlpha = true := by simp [Char.isAlpha, hwu]
    have hwc : w ∈ p.get_ciphertext :=
      List.mem_map.mpr ⟨c, hc, by simp [hl]⟩
    have hnp := hall w hwc
    have hany : p.user_guesses.any (fun e => e.1 == w) = true := by
      cases hv : p.user_guesses.any (fun e => e.1 == w)
      · exfalso
        apply hnp
        rw [isAlpha_pyIsAlpha hwa, hv]
        rfl
      · rfl
    obtain ⟨g, hg⟩ :=
      Option.isSome_iff_exists.mp ((hasKey_iff_lookup _ _).mp hany)
    have hgm : (w, g) ∈ p.user_guesses := lookup_some_mem hg
    have hgmap : (g, w) ∈ p.cipher_mapping := hInv.guesses_sub w g hgm
    have hgc : g = c := snd_nodup_value_inj (inv_snd_nodup hInv) hgmap hw
    simp [Function.comp, hl, hwa, hg, hgc]

/-! Termination of repeated hints. -/

theorem filter_ne_lt {l : List Char} {a : Char} (ha : a ∈ l) :
    (l.filter (fun x => !(x == a))).length < l.length := by
  induction l with
  | nil => cases ha
  | cons b t ih =>
    rw [List.filter_cons]
    by_cases hb : b = a
    · subst hb
      have hcond : (!(b == b)) = false := by simp
      rw [hcond]
      simp only [Bool.false_eq_true, if_false, List.length_cons]
      exact Nat.lt_succ_of_le (List.length_filter_le _ _)
    · have hat : a ∈ t := by
        rcases List.mem_cons.mp ha with h1 | h1
        · exact absurd h1.symm hb
        · exact h1
      have hcond : (!(b == a)) = true := by simp [hb]
      rw [hcond]
      simp only [if_true, List.length_cons]
      exact Nat.succ_lt_succ (ih hat)

theorem unguessedList_after_hint (p : Puzzle) (chosen v : Char) :
    ({ p with user_guesses := dictInsert p.user_guesses chosen v } :
        Puzzle).unguessedList
      = p.unguessedList.filter (fun x => !(x == chosen)) := by
  unfold Puzzle.unguessedList
  have hct : ({ p with user_guesses := dictInsert p.user_guesses chosen v } :
      Puzzle).get_ciphertext = p.get_ciphertext := rfl
  rw [hct, List.filter_filter]
  apply List.filter_congr
  intro u hu
  by_cases hc : u = chosen
  · subst hc
    have h1 : (dictInsert p.user_guesses u v).any (fun e => e.1 == u) = true := by
      apply (hasKey_iff_lookup _ _).mpr
      rw [lookup_dictInsert, if_pos rfl]
      rfl
    rw [h1]
    simp
  · have h1 : (dictInsert p.user_guesses chosen v).any (fun e => e.1 == u)
        = p.user_guesses.any (fun e => e.1 == u) := by
      apply bool_eq_of_iff
      rw [hasKey_iff_lookup, hasKey_iff_lookup, lookup_dictInsert, if_neg hc]
    rw [h1]
    have h2 : (!(u == chosen)) = true := by simp [hc]
    rw [h2]
    simp [Bool.and_comm]

theorem give_hint_some_lt {p : Puzzle} (hInv : Inv p)
    (hascii : ∀ c ∈ p.plaintext, c.toNat < 128) (n : Nat)
    (hne : p.unguessedList ≠ []) :
    ((p.give_hint n).2.unguessedList).length < p.unguessedList.length := by
  obtain ⟨chosen, e, hcm, -, -, -, heq⟩ := give_hint_nonempty p n hInv hascii hne
  rw [heq]
  show ({ p with user_guesses := dictInsert p.user_guesses chosen e.1 } :
    Puzzle).unguessedList.length < p.unguessedList.length
  rw [unguessedList_after_hint]
  exact filter_ne_lt hcm

theorem give_hint_none_empty {p : Puzzle} (hInv : Inv p)
    (hascii : ∀ c ∈ p.plaintext, c.toNat < 128) {n : Nat}
    (h : (p.give_hint n).1 = none) : p.unguessedList = [] := by
  by_contra hne
  obtain ⟨chosen, e, -, -, -, -, heq⟩ := give_hint_nonempty p n hInv hascii hne
  rw [heq] at h
  cases h

theorem hint_none_solved {p : Puzzle} (hInv : Inv p)
    (hascii : ∀ c ∈ p.plaintext, c.toNat < 128) {n : Nat}
    (h : (p.give_hint n).1 = none) : p.is_solved = true := by
  unfold Puzzle.is_solved
  rw [unguessed_empty_solved hInv (give_hint_none_empty hInv hascii h)]
  simp

theorem hintIter_shift (p : Puzzle) (ns : Nat → Nat) (k : Nat) :
    hintIter p ns (k + 1) =
      hintIter ((p.give_hint (ns 0)).2) (fun i => ns (i + 1)) k := by
  induction k with
  | zero => rfl
  | succ m ih =>
    show ((hintIter p ns (m + 1)).give_hint (ns (m + 1))).2 = _
    rw [ih]
    rfl

theorem reachable_hintIter {p : Puzzle} (h : Reachable p) (ns : Nat → Nat)
    (k : Nat) : Reachable (hintIter p ns k) := by
  induction k with
  | zero => exact h
  | succ m ih => exact Reachable.hint _ ih

theorem hint_exhaustion_aux : ∀ (m : Nat) (p : Puzzle), Reachable p →
    (∀ c ∈ p.plaintext, c.toNat < 128) →
    p.unguessedList.length ≤ m → ∀ ns : Nat → Nat,
    ∃ k, ((hintIter p ns k).give_hint (ns k)).1 = none ∧
      (hintIter p ns k).is_solved = true := by
  intro m
  induction m with
  | zero =>
    intro p hp hascii hlen ns
    have hemp : p.unguessedList = [] :=
      List.eq_nil_of_length_eq_zero (Nat.le_zero.mp hlen)
    have hnone : (p.give_hint (ns 0)).1 = none := by
      rw [give_hint_empty p (ns 0) hemp]
    exact ⟨0, hnone, hint_none_solved (reachable_inv hp) hascii hnone⟩
  | succ m ih =>
    intro p hp hascii hlen ns
    by_cases hemp : p.unguessedList = []
    · have hnone : (p.give_hint (ns 0)).1 = none := by
        rw [give_hint_empty p (ns 0) hemp]
      exact ⟨0, hnone, hint_none_solved (reachable_inv hp) hascii hnone⟩
    · have hlt := give_hint_some_lt (reachable_inv hp) hascii (ns 0) hemp
      have hp' : Reachable ((p.give_hint (ns 0)).2) := Reachable.hint _ hp
      have hascii' : ∀ c ∈ (p.give_hint (ns 0)).2.plaintext, c.toNat < 128 := by
        rw [give_hint_plaintext]
        exact hascii
      obtain ⟨k, hk1, hk2⟩ := ih ((p.give_hint (ns 0)).2) hp' hascii'
        (by omega) (fun i => ns (i + 1))
      refine ⟨k + 1, ?_, ?_⟩
      · rw [hintIter_shift]
        exact hk1
      · rw [hintIter_shift]
        exact hk2

/-! Claim theorems. -/

/-- C1: in every reachable puzzle state, every entry `(cipher_char,
plain_char)` stored in `user_guesses` agrees with the true cipher mapping —
the revealed map is a subset of the mapping's inverse, so no operation ever
stores an incorrect guess. -/
theorem c1_revealed_subset_of_mapping {p : Puzzle} (h : Reachable p) :
    ∀ c k : Char, (c, k) ∈ p.user_guesses → (k, c) ∈ p.cipher_mapping :=
  (reachable_inv h).guesses_sub

theorem c1_witness :
    ('h', 'H') ∈
      (((Puzzle.new "hi".toList asciiUpper).make_guess 'H' 'h').2).cipher_mapping :=
  c1_revealed_subset_of_mapping
    (Reachable.guess 'H' 'h'
      (Reachable.new "hi".toList asciiUpper (List.Perm.refl _)))
    'H' 'h' (by decide)

/-- C3: the check `is_solved` returns true exactly when the rendered current guess
equals the stored plaintext, character for character. -/
theorem c3_is_solved_iff (p : Puzzle) :
    p.is_solved = true ↔ p.get_current_guess = p.plaintext := by
  unfold Puzzle.is_solved
  exact beq_iff_eq

/-- C6: the whole-text solve check of the `solve` command returns true
exactly when the candidate and the plaintext agree after lowercasing and
dropping every non-alphanumeric character, and it never changes the puzzle
state. -/
theorem c6_solve_puzzle_spec (p : Puzzle) (guess_text : List Char) :
    (solve_puzzle p guess_text).2 = p ∧
    ((solve_puzzle p guess_text).1 = true ↔
      normalize guess_text = normalize p.plaintext) :=
  ⟨rfl, beq_iff_eq⟩

/-- C8: every generated cipher mapping (the lowercase alphabet zipped with
any permutation of the uppercase alphabet) has exactly 26 entries, its keys
are exactly the 26 lowercase letters, and its values are exactly the 26
uppercase letters with no repetition — a bijection. -/
theorem c8_cipher_bijection (pt shuffled : List Char)
    (h : shuffled.Perm asciiUpper) :
    (Puzzle.new pt shuffled).cipher_mapping.length = 26 ∧
    (Puzzle.new pt shuffled).cipher_mapping.map Prod.fst = asciiLower ∧
    ((Puzzle.new pt shuffled).cipher_mapping.map Prod.snd).Perm asciiUpper ∧
    ((Puzzle.new pt shuffled).cipher_mapping.map Prod.snd).Nodup := by
  have hlen : shuffled.length = 26 := by
    rw [h.length_eq]
    decide
  have hfst : (asciiLower.zip shuffled).map Prod.fst = asciiLower :=
    List.map_fst_zip _ _ (by rw [hlen]; decide)
  have hsnd : (asciiLower.zip shuffled).map Prod.snd = shuffled :=
    List.map_snd_zip _ _ (by rw [hlen]; decide)
  show (asciiLower.zip shuffled).length = 26 ∧
    (asciiLower.zip shuffled).map Prod.fst = asciiLower ∧
    ((asciiLower.zip shuffled).map Prod.snd).Perm asciiUpper ∧
    ((asciiLower.zip shuffled).map Prod.snd).Nodup
  refine ⟨?_, hfst, ?_, ?_⟩
  · rw [List.length_zip, hlen]
    decide
  · rw [hsnd]
    exact h
  · rw [hsnd]
    exact h.nodup_iff.mpr asciiUpper_nodup

theorem c8_witness :
    (Puzzle.new "hi".toList asciiUpper).cipher_mapping.length = 26 ∧
    (Puzzle.new "hi".toList asciiUpper).cipher_mapping.map Prod.fst = asciiLower ∧
    ((Puzzle.new "hi".toList asciiUpper).cipher_mapping.map Prod.snd).Perm asciiUpper ∧
    ((Puzzle.new "hi".toList asciiUpper).cipher_mapping.map Prod.snd).Nodup :=
  c8_cipher_bijection "hi".toList asciiUpper (List.Perm.refl _)

/-- C9: the rendered current guess has the same length as the ciphertext,
and position by position an alphabetic ciphertext character with a recorded
guess shows that guess, an alphabetic character without one shows an
underscore, and a non-alphabetic character passes through unchanged. -/
theorem c9_current_guess_shape (p : Puzzle) :
    p.get_current_guess.length = p.get_ciphertext.length ∧
    ∀ (i : Nat) (h : i < p.get_ciphertext.length),
      (p.get_ciphertext[i].isAlpha = true →
        (∀ g : Char,
          p.user_guesses.lookup p.get_ciphertext[i] = some g →
            p.get_current_guess.getD i '_' = g) ∧
        (p.user_guesses.lookup p.get_ciphertext[i] = none →
          p.get_current_guess.getD i '_' = '_')) ∧
      (p.get_ciphertext[i].isAlpha = false →
        p.get_current_guess.getD i '_' = p.get_ciphertext[i]) := by
  refine ⟨by simp [Puzzle.get_current_guess], ?_⟩
  intro i h
  have hg : p.get_current_guess.getD i '_' =
      (fun char =>
        if char.isAlpha then
          match p.user_guesses.lookup char with
          | some g => g
          | none => '_'
        else char) p.get_ciphertext[i] := by
    unfold Puzzle.get_current_guess
    rw [List.getD_eq_getElem?_getD, List.getElem?_map,
      List.getElem?_eq_getElem h]
    simp
  refine ⟨?_, ?_⟩
  · intro ha
    refine ⟨?_, ?_⟩
    · intro g hgl
      rw [hg]
      simp [ha, hgl]
    · intro hnone
      rw [hg]
      simp [ha, hnone]
  · intro ha
    rw [hg]
    simp [ha]

theorem c9_witness :
    (Puzzle.new "hi".toList asciiUpper).get_current_guess.getD 0 '_' = '_' :=
  (((c9_current_guess_shape (Puzzle.new "hi".toList asciiUpper)).2 0
      (by decide)).1 (by decide)).2 (by decide)

/-- C2: the guess operation `make_guess` rejects (false, no mutation) unless the cipher token is
uppercase and the plain token lowercase; under the case convention it
succeeds exactly when the plain letter is the true preimage of the cipher
letter in the mapping, recording the pair on success and leaving the state
untouched on failure. -/
theorem c2_make_guess_spec {p : Puzzle} (h : Reachable p) (c k : Char) :
    ((c.isUpper && k.isLower) = false → p.make_guess c k = (false, p)) ∧
    ((c.isUpper && k.isLower) = true →
      ((p.make_guess c k).1 = true ↔ (k, c) ∈ p.cipher_mapping)) ∧
    ((p.make_guess c k).1 = true →
      (p.make_guess c k).2.user_guesses = dictInsert p.user_guesses c k ∧
      (c, k) ∈ (p.make_guess c k).2.user_guesses ∧
      (p.make_guess c k).2.plaintext = p.plaintext ∧
      (p.make_guess c k).2.cipher_mapping = p.cipher_mapping) ∧
    ((p.make_guess c k).1 = false → (p.make_guess c k).2 = p) := by
  have hInv := reachable_inv h
  refine ⟨?_, ?_, ?_, ?_⟩
  · intro hb
    exact make_guess_bad_format p hb
  · intro hb
    constructor
    · intro ht
      rcases make_guess_cases p c k with hcase | ⟨-, -, hmem, -, -⟩
      · rw [hcase] at ht
        cases ht
      · exact hmem
    · intro hmem
      have hf := find?_value_eq (inv_snd_nodup hInv) hmem
      unfold Puzzle.make_guess
      rw [if_pos hb, hf]
      simp
  · intro ht
    rcases make_guess_cases p c k with hcase | ⟨-, -, -, -, hcase⟩
    · rw [hcase] at ht
      cases ht
    · rw [hcase]
      exact ⟨rfl, self_mem_dictInsert _ _ _, rfl, rfl⟩
  · intro hfval
    rcases make_guess_cases p c k with hcase | ⟨-, -, -, -, hcase⟩
    · rw [hcase]
    · rw [hcase] at hfval
      cases hfval

theorem c2_witness :
    ((Puzzle.new "hi".toList asciiUpper).make_guess 'H' 'h').1 = true ↔
      ('h', 'H') ∈ (Puzzle.new "hi".toList asciiUpper).cipher_mapping :=
  (c2_make_guess_spec
    (Reachable.new "hi".toList asciiUpper (List.Perm.refl _)) 'H' 'h').2.1
    (by decide)

/-- C5 (counterexample): on the reachable fresh puzzle with plaintext
"café", the non-ASCII letter passes through the cipher unchanged and stays
permanently unguessed; when the hint choice picks it, the mapping scan
fails and `give_hint` returns nothing while the puzzle is not solved —
refuting the claim that a nothing-result implies `is_solved`. -/
theorem c5_counterexample :
    Reachable (Puzzle.new "café".toList asciiUpper) ∧
    ((Puzzle.new "café".toList asciiUpper).give_hint 3).1 = none ∧
    (Puzzle.new "café".toList asciiUpper).is_solved = false := by
  refine ⟨Reachable.new "café".toList asciiUpper (List.Perm.refl _), ?_, ?_⟩
  · decide
  · decide

/-- C5 (amended): from any reachable state whose plaintext contains no
non-ASCII character, repeatedly calling `give_hint` reaches a call that
returns nothing, and whenever `give_hint` returns nothing the puzzle is
solved. -/
theorem c5_hint_exhaustion_ascii {p : Puzzle} (h : Reachable p)
    (hascii : ∀ c ∈ p.plaintext, c.toNat < 128) (ns : Nat → Nat) :
    (∀ n : Nat, (p.give_hint n).1 = none → p.is_solved = true) ∧
    ∃ k, ((hintIter p ns k).give_hint (ns k)).1 = none ∧
      (hintIter p ns k).is_solved = true := by
  refine ⟨fun n hn => hint_none_solved (reachable_inv h) hascii hn, ?_⟩
  exact hint_exhaustion_aux p.unguessedList.length p h hascii (Nat.le_refl _) ns

theorem c5_witness :
    (∀ n : Nat,
      ((Puzzle.new "hi".toList asciiUpper).give_hint n).1 = none →
        (Puzzle.new "hi".toList asciiUpper).is_solved = true) ∧
    ∃ k, ((hintIter (Puzzle.new "hi".toList asciiUpper) (fun i => i) k).give_hint
        ((fun i => i) k)).1 = none ∧
      (hintIter (Puzzle.new "hi".toList asciiUpper) (fun i => i) k).is_solved
        = true :=
  c5_hint_exhaustion_ascii
    (Reachable.new "hi".toList asciiUpper (List.Perm.refl _))
    (by decide) (fun i => i)

/-- C10: in a reachable state, re-guessing a pair already present in
`user_guesses` succeeds again and leaves the state exactly unchanged —
a correct guess is idempotent. -/
theorem c10_reguess_idempotent {p : Puzzle} (h : Reachable p) (c k : Char)
    (hmem : (c, k) ∈ p.user_guesses) :
    (p.make_guess c k).1 = true ∧ (p.make_guess c k).2 = p := by
  have hInv := reachable_inv h
  have hmap : (k, c) ∈ p.cipher_mapping := hInv.guesses_sub c k hmem
  have hcls := inv_entry_classes hInv hmap
  have hf := find?_value_eq (inv_snd_nodup hInv) hmap
  have huniq : ∀ e ∈ p.user_guesses, e.1 = c → e.2 = k := by
    intro e he h1
    obtain ⟨e1, e2⟩ := e
    simp only at h1
    subst h1
    have hm2 : (e2, e1) ∈ p.cipher_mapping := hInv.guesses_sub e1 e2 he
    exact snd_nodup_value_inj (inv_snd_nodup hInv) hm2 hmap
  have hins : dictInsert p.user_guesses c k = p.user_guesses :=
    dictInsert_eq_self hmem huniq
  unfold Puzzle.make_guess
  rw [if_pos (by rw [hcls.2, hcls.1]; rfl), hf]
  have hkk : (k == k) = true := beq_iff_eq.mpr rfl
  refine ⟨by simp, ?_⟩
  simp only [hkk, if_true]
  show ({ p with user_guesses := dictInsert p.user_guesses c k } : Puzzle) = p
  rw [hins]

/-- C4 (counterexample): on the reachable fresh puzzle with plaintext
"café", the unguessed list is non-empty (it holds the three mapped cipher
letters and the pass-through non-ASCII letter), yet when the hint choice
picks the non-ASCII letter the mapping scan fails and `give_hint` returns
nothing through the trailing return of the Python loop — refuting the
claimed equivalence between a nothing-result and an empty unguessed set. -/
theorem c4_counterexample :
    Reachable (Puzzle.new "café".toList asciiUpper) ∧
    ((Puzzle.new "café".toList asciiUpper).give_hint 3).1 = none ∧
    (Puzzle.new "café".toList asciiUpper).unguessedList ≠ [] := by
  refine ⟨Reachable.new "café".toList asciiUpper (List.Perm.refl _), ?_, ?_⟩
  · decide
  · decide

/-- C4 (amended): in every reachable state whose plaintext contains no
non-ASCII character, `give_hint` returns nothing exactly when no alphabetic
ciphertext letter remains unguessed, in which case the state is unchanged;
otherwise it returns a pair whose cipher letter is one of the unguessed
occurrences and mutates the state exactly as the corresponding correct
`make_guess` would. -/
theorem c4_give_hint_spec_ascii {p : Puzzle} (h : Reachable p)
    (hascii : ∀ c ∈ p.plaintext, c.toNat < 128) (n : Nat) :
    ((p.give_hint n).1 = none ↔ p.unguessedList = []) ∧
    ((p.give_hint n).1 = none → (p.give_hint n).2 = p) ∧
    (∀ c k : Char, (p.give_hint n).1 = some (c, k) →
      c ∈ p.unguessedList ∧ (p.make_guess c k).1 = true ∧
      (p.give_hint n).2 = (p.make_guess c k).2) := by
  have hInv := reachable_inv h
  refine ⟨⟨fun hn => give_hint_none_empty hInv hascii hn,
    fun he => by rw [give_hint_empty p n he]⟩, ?_, ?_⟩
  · intro hn
    rw [give_hint_empty p n (give_hint_none_empty hInv hascii hn)]
  · intro c k hsome
    by_cases he : p.unguessedList = []
    · rw [give_hint_empty p n he] at hsome
      cases hsome
    · obtain ⟨chosen, e, hcm, hf, he2, hmem, heq⟩ :=
        give_hint_nonempty p n hInv hascii he
      have hsome2 : some (chosen, e.1) = some (c, k) := by
        rw [heq] at hsome
        exact hsome
      have hpair := Option.some.inj hsome2
      have hc : chosen = c := congrArg Prod.fst hpair
      have hk : e.1 = k := congrArg Prod.snd hpair
      subst hc
      subst hk
      have hu : chosen.isUpper = true := by
        simpa using (inv_entry_classes hInv hmem).2
      have hl : e.1.isLower = true := by
        simpa using (inv_entry_classes hInv hmem).1
      have hmk : p.make_guess chosen e.1 =
          (true,
           { p with user_guesses := dictInsert p.user_guesses chosen e.1 }) := by
        unfold Puzzle.make_guess
        rw [if_pos (by rw [hu, hl]; rfl), hf]
        have hkk : (e.1 == e.1) = true := beq_iff_eq.mpr rfl
        simp only [hkk, if_true]
      refine ⟨hcm, ?_, ?_⟩
      · rw [hmk]
      · rw [heq, hmk]

theorem c4_witness :
    ((Puzzle.new "hi".toList asciiUpper).give_hint 0).1 = none ↔
      (Puzzle.new "hi".toList asciiUpper).unguessedList = [] :=
  (c4_give_hint_spec_ascii
    (Reachable.new "hi".toList asciiUpper (List.Perm.refl _))
    (by decide) 0).1

theorem undo_after_append (p : Puzzle) (c k : Char)
    (hfresh : ∀ e ∈ p.user_guesses, e.1 ≠ c) :
    (({ p with user_guesses := p.user_guesses ++ [(c, k)] } :
        Puzzle).undo_guess c).1 = true ∧
    (({ p with user_guesses := p.user_guesses ++ [(c, k)] } :
        Puzzle).undo_guess c).2 = p := by
  rcases undo_guess_cases
      ({ p with user_guesses := p.user_guesses ++ [(c, k)] } : Puzzle) c with
    ⟨h1, h2⟩ | h1
  · exfalso
    have h4 : (p.user_guesses ++ [(c, k)]).any (fun e => e.1 == c) = false := h2
    have h3 : (p.user_guesses ++ [(c, k)]).any (fun e => e.1 == c) = true :=
      any_key_append p.user_guesses c k
    rw [h4] at h3
    cases h3
  · constructor
    · rw [h1]
    · rw [h1]
      show ({ p with user_guesses :=
        (p.user_guesses ++ [(c, k)]).filter (fun e => !(e.1 == c)) } :
          Puzzle) = p
      rw [filter_key_append k hfresh]

/-- C7 (counterexample): from the reachable state in which `H ↦ h` is
already revealed, `make_guess('H','h')` returns true again, and the
following `undo_guess('H')` returns true but deletes the entry, so
`user_guesses` is NOT restored to its prior (non-empty) value — the claim
fails when the guessed letter was already revealed. -/
theorem c7_counterexample :
    Reachable (((Puzzle.new "hi".toList asciiUpper).make_guess 'H' 'h').2) ∧
    ((((Puzzle.new "hi".toList asciiUpper).make_guess 'H' 'h').2).make_guess
      'H' 'h').1 = true ∧
    (((((Puzzle.new "hi".toList asciiUpper).make_guess 'H' 'h').2).make_guess
      'H' 'h').2.undo_guess 'H').1 = true ∧
    ¬((((((Puzzle.new "hi".toList asciiUpper).make_guess 'H' 'h').2).make_guess
      'H' 'h').2.undo_guess 'H').2.user_guesses =
        (((Puzzle.new "hi".toList asciiUpper).make_guess 'H' 'h').2).user_guesses) := by
  refine ⟨Reachable.guess 'H' 'h'
    (Reachable.new "hi".toList asciiUpper (List.Perm.refl _)), ?_, ?_, ?_⟩
  · decide
  · decide
  · decide

/-- C7 (amended): in every reachable state, if the guessed cipher letter is
not already a key of `user_guesses` and `make_guess(c,k)` returns true, then
`undo_guess(c)` returns true and restores the puzzle exactly to its prior
state. -/
theorem c7_undo_inverse_amended {p : Puzzle} (_hreach : Reachable p) (c k : Char)
    (hfresh : ∀ e ∈ p.user_guesses, e.1 ≠ c)
    (ht : (p.make_guess c k).1 = true) :
    ((p.make_guess c k).2.undo_guess c).1 = true ∧
    ((p.make_guess c k).2.undo_guess c).2 = p := by
  rcases make_guess_cases p c k with hcase | ⟨-, -, -, -, hcase⟩
  · rw [hcase] at ht
    cases ht
  · rw [hcase]
    have happ : dictInsert p.user_guesses c k = p.user_guesses ++ [(c, k)] :=
      dictInsert_no_key k hfresh
    rw [happ]
    exact undo_after_append p c k hfresh

theorem c7_witness :
    (((Puzzle.new "hi".toList asciiUpper).make_guess 'H' 'h').2.undo_guess
      'H').1 = true ∧
    (((Puzzle.new "hi".toList asciiUpper).make_guess 'H' 'h').2.undo_guess
      'H').2 = Puzzle.new "hi".toList asciiUpper :=
  c7_undo_inverse_amended
    (Reachable.new "hi".toList asciiUpper (List.Perm.refl _)) 'H' 'h'
    (by decide) (by decide)

theorem c10_witness :
    ((((Puzzle.new "hi".toList asciiUpper).make_guess 'H' 'h').2).make_guess
      'H' 'h').2 =
      ((Puzzle.new "hi".toList asciiUpper).make_guess 'H' 'h').2 :=
  (c10_reguess_idempotent
    (Reachable.guess 'H' 'h'
      (Reachable.new "hi".toList asciiUpper (List.Perm.refl _)))
    'H' 'h' (by decide)).2

end Bot
